import Mathlib

/-!
Shallow embedding of the core decision logic of the ecommerce Price Tracker
(`src/price_tracker/`): the price-text normalizer and generic extractor
(`scraper.py`), the price analyzer (`price_analyzer.py`), the trend
classifier (`storage.py`), the notification cooldown gate (`notifier.py`)
and the check-cycle orchestrator (`scheduler_module.py`).

Prices and timestamps are modelled as exact rationals (ℚ); text is modelled
as `List Char`; the external store, transport and SMTP collaborators are
modelled as explicit parameters (lists, maps, oracles).
-/

namespace PriceTracker

/-! ## Price-Text Normalizer (`scraper._parse_price_text`) -/

/-- A character allowed after the leading digit of a numeric token:
the regex character class `[\d,.]`. -/
def isNumChar (c : Char) : Bool := c.isDigit || c = ',' || c = '.'

/-- Accumulator pass implementing `re.findall(r"\d[\d,.]*", text)`:
left-to-right, a token starts at a digit (when not already inside a token)
and greedily extends over digits, commas and periods. `cur` is the token
currently being built, if any. -/
def scanTokensAux (cur : Option (List Char)) : List Char → List (List Char)
  | [] =>
    match cur with
    | none => []
    | some t => [t]
  | c :: cs =>
    match cur with
    | none =>
      if c.isDigit then scanTokensAux (some [c]) cs
      else scanTokensAux none cs
    | some t =>
      if isNumChar c then scanTokensAux (some (t ++ [c])) cs
      else t :: scanTokensAux none cs

/-- All maximal numeric-looking tokens of a text, in order of occurrence:
`re.findall(r"\d[\d,.]*", price_text)`. -/
def scanTokens (l : List Char) : List (List Char) := scanTokensAux none l

/-- Python's `max(candidates, key=len)`: the first element of maximal
length (Python `max` keeps the current element on ties). -/
def maxByLen (x : List Char) : List (List Char) → List Char
  | [] => x
  | y :: ys => if x.length < y.length then maxByLen y ys else maxByLen x ys

/-- `token.replace(",", "")`: strip thousands separators. -/
def stripCommas (l : List Char) : List Char := l.filter (· ≠ ',')

/-- The multiple-dot normalization of `_parse_price_text`: when the token
holds more than one period, split at the first period and delete every
period from the remainder (`head + "." + tail.replace(".", "")`). -/
def normalizeDots (l : List Char) : List Char :=
  if 1 < l.count '.' then
    let head := l.takeWhile (· ≠ '.')
    let tail := (l.dropWhile (· ≠ '.')).tail
    head ++ '.' :: tail.filter (· ≠ '.')
  else l

/-- Numeric value of a digit string (most significant first). -/
def digitsToNat (l : List Char) : Nat :=
  l.foldl (fun acc c => 10 * acc + (c.toNat - '0'.toNat)) 0

/-- Python's `float` restricted to the shapes reachable here: an optionally
dotted digit string. Accepts `"123"`, `"123."`, `"12.5"`; rejects an empty
integer part, a non-digit, or more than one dot. -/
def parseFloat (l : List Char) : Option ℚ :=
  let intPart := l.takeWhile (· ≠ '.')
  if intPart = [] || !intPart.all Char.isDigit then none
  else
    match l.dropWhile (· ≠ '.') with
    | [] => some (digitsToNat intPart)
    | '.' :: frac =>
      if frac.all Char.isDigit then
        some ((digitsToNat intPart : ℚ) + (digitsToNat frac : ℚ) / 10 ^ frac.length)
      else none
    | _ => none

/-- `scraper._parse_price_text`: find candidate tokens, pick the longest
(first on ties), strip commas, normalize multiple dots, parse. The error
payload carries the original text. -/
def parse_price_text (text : List Char) : Except (List Char) ℚ :=
  match scanTokens text with
  | [] => .error text
  | t :: ts =>
    let token := maxByLen t ts
    let cleaned := normalizeDots (stripCommas token)
    match parseFloat cleaned with
    | some v => .ok v
    | none => .error text

/-! ## Generic site extractor (`scraper._parse_generic_product`) -/

/-- Python `str.strip()`: drop leading and trailing whitespace. -/
def stripText (l : List Char) : List Char :=
  ((l.dropWhile Char.isWhitespace).reverse.dropWhile Char.isWhitespace).reverse

/-- A parsed document as the generic extractor consumes it: the optional
`<title>` element's text and the text nodes in document order
(`soup.find_all(string=...)` traverses in document order). -/
structure GenericDoc where
  title : Option (List Char)
  texts : List (List Char)

/-- The name part of `_parse_generic_product`:
`title_el.get_text(strip=True) if title_el else "Unknown product"`. -/
def genericName (doc : GenericDoc) : List Char :=
  match doc.title with
  | some t => stripText t
  | none => "Unknown product".toList

/-- The candidate loop of `_parse_generic_product`: strip each text node,
skip empty ones, return the first that `_parse_price_text` accepts. -/
def firstPrice : List (List Char) → Option ℚ
  | [] => none
  | t :: ts =>
    let text := stripText t
    if text = [] then firstPrice ts
    else
      match parse_price_text text with
      | .ok p => some p
      | .error _ => firstPrice ts

/-- `scraper._parse_generic_product`: name from the title (or the literal
fallback), price from the first text node containing a digit
(`re.compile(r"[0-9]")` as the `find_all` string filter) that normalizes. -/
def parse_generic_product (doc : GenericDoc) : Except String ((List Char) × ℚ) :=
  let name := genericName doc
  let textCandidates := doc.texts.filter (fun t => t.any Char.isDigit)
  match firstPrice textCandidates with
  | some p => .ok (name, p)
  | none => .error "Could not find a price on the page."

/-! ## Price analyzer (`price_analyzer.analyze_price`) -/

/-- The dictionary returned by `analyze_price`. -/
structure PriceAnalysis where
  is_below_or_equal : Bool
  current_price : ℚ
  target_price : ℚ
  difference : ℚ
deriving DecidableEq

/-- `price_analyzer.analyze_price`: difference and the alert condition. -/
def analyze_price (current_price target_price : ℚ) : PriceAnalysis :=
  let difference := current_price - target_price
  { is_below_or_equal := difference ≤ 0
    current_price := current_price
    target_price := target_price
    difference := difference }

/-! ## Trend classifier (`storage.get_price_trend_direction`)

The price-history store is modelled as the chronological list (oldest
first) of a product's snapshot prices; `get_price_history` returns rows
`ORDER BY scraped_at DESC LIMIT n`, i.e. the newest-first prefix. -/

/-- `storage.get_price_history(product_id, limit)` on a chronological
history: newest first, at most `limit` rows. -/
def get_price_history (chron : List ℚ) (limit : Int) : List ℚ :=
  chron.reverse.take limit.toNat

/-- `storage.get_price_trend_direction`: clamp the window, take the most
recent rows, reverse to chronological, compare newest against oldest with
a 1%-of-oldest threshold floored at 0.01. The `headD`/`getLastD` defaults
mirror `history[0]`/`history[-1]`, which the length guard makes safe. -/
def get_price_trend_direction (chron : List ℚ) (window : Int) : String :=
  let w := if window ≤ 1 then 2 else window
  let history := get_price_history chron w
  if history.length < 2 then "stable"
  else
    let chronWindow := history.reverse
    let first := chronWindow.headD 0
    let last := chronWindow.getLastD 0
    let threshold := if first = 0 then (0.01 : ℚ) else max (|first| * 0.01) 0.01
    let delta := last - first
    if threshold < delta then "up"
    else if delta < -threshold then "down"
    else "stable"

/-! ## Notification gate (`notifier._can_send`, `notifier.send_price_drop_email`)

`_LAST_NOTIFIED` is modelled as a map from (recipient, product URL) keys
to the minute timestamp of the last recorded send; `datetime.utcnow()`
is an explicit `now` parameter in minutes. -/

abbrev NotifyKey := String × String

abbrev LastNotified := NotifyKey → Option ℚ

/-- `notifier._COOLDOWN_MINUTES`. -/
def COOLDOWN_MINUTES : ℚ := 60

/-- `notifier._can_send`: allowed when no send is recorded for the key or
`now - last >= timedelta(minutes=60)`. -/
def can_send (lastNotified : LastNotified) (now : ℚ) (key : NotifyKey) : Bool :=
  match lastNotified key with
  | none => true
  | some last => COOLDOWN_MINUTES ≤ now - last

/-- The SMTP settings as `_load_smtp_config` returns them: optional
strings and a port that is always an integer (default 587). -/
structure SmtpConfig where
  host : Option String
  port : Int
  user : Option String
  password : Option String
  sender : Option String

/-- Python truthiness of an optional string: `None` and `""` are falsy. -/
def truthyStr : Option String → Bool
  | none => false
  | some s => s != ""

/-- `notifier.send_price_drop_email`, with the SMTP transaction outcome as
the oracle `smtpOk`: cooldown check first, then the config/recipient
truthiness check, then the send; only a completed send records the key in
`_LAST_NOTIFIED`. Returns the boolean result and the updated map. The
message fields (name, prices) only feed the email body and are omitted. -/
def send_price_drop_email (lastNotified : LastNotified) (now : ℚ)
    (user_email product_url : String) (cfg : SmtpConfig) (smtpOk : Bool) :
    Bool × LastNotified :=
  let key : NotifyKey := (user_email, product_url)
  if !can_send lastNotified now key then (false, lastNotified)
  else if !(truthyStr cfg.host && cfg.port != 0 && truthyStr cfg.user &&
      truthyStr cfg.password && truthyStr cfg.sender && user_email != "") then
    (false, lastNotified)
  else if !smtpOk then (false, lastNotified)
  else (true, fun k => if k = key then some now else lastNotified k)

/-! ## Check-cycle orchestrator (`scheduler_module._run_price_check_once`)

The store, scraper and notifier are explicit parameters: `scrape` stands
for `get_product_info` (already returning a numeric price, as the scraper
guarantees, so the `float(...)` coercion cannot fail), `notify` for the
boolean outcome of `send_price_drop_email`. Snapshots are accumulated in
an append-only list, mirroring `add_price_snapshot`. -/

structure Product where
  id : Nat
  product_url : String
  site_name : String
  target_price : ℚ

structure ProdInfo where
  product_name : List Char
  current_price : ℚ

structure RunState where
  snapshots : List (Nat × ℚ)
  processed : Nat
  successful_scrapes : Nat
  notifications_sent : Nat

/-- The body of the product loop in `_run_price_check_once` for one
product: count it, skip on scrape error, persist the snapshot, analyze
against the target, and notify when the condition holds, a recipient is
configured, and the notifier reports success. -/
def checkProduct (scrape : Product → Except String ProdInfo)
    (notify : Product → ℚ → Bool) (recipient_email : Option String)
    (st : RunState) (p : Product) : RunState :=
  let st := { st with processed := st.processed + 1 }
  match scrape p with
  | .error _ => st
  | .ok info =>
    let current := info.current_price
    let st := { st with
      successful_scrapes := st.successful_scrapes + 1
      snapshots := st.snapshots ++ [(p.id, current)] }
    let analysis := analyze_price current p.target_price
    if analysis.is_below_or_equal && truthyStr recipient_email then
      if notify p current then
        { st with notifications_sent := st.notifications_sent + 1 }
      else st
    else st

/-- `scheduler_module._run_price_check_once` over the active products. -/
def run_price_check_once (scrape : Product → Except String ProdInfo)
    (notify : Product → ℚ → Bool) (recipient_email : Option String)
    (products : List Product) : RunState :=
  products.foldl (checkProduct scrape notify recipient_email)
    ⟨[], 0, 0, 0⟩

/-! ## Theorems -/

/-- C1 (counterexample): on the text `"1.234.56"` the normalizer does not
return `1234.56`. -/
theorem two_period_token_counterexample :
    parse_price_text "1.234.56".toList ≠ Except.ok (1234.56 : ℚ) := by
  rw [show parse_price_text "1.234.56".toList
      = .ok (((1 : ℕ) : ℚ) + ((23456 : ℕ) : ℚ) / 10 ^ (5 : ℕ)) from rfl]
  intro h
  rw [Except.ok.injEq] at h
  norm_num at h

/-- C1 (amended): on the single two-period candidate token `"1.234.56"`
the normalizer keeps the first period as the decimal point and removes the
subsequent periods from the fractional part, returning `1.23456`. -/
theorem two_period_token_value :
    parse_price_text "1.234.56".toList = .ok (1.23456 : ℚ) := by
  rw [show parse_price_text "1.234.56".toList
      = .ok (((1 : ℕ) : ℚ) + ((23456 : ℕ) : ℚ) / 10 ^ (5 : ℕ)) from rfl]
  norm_num

/-- C4: `analyze_price` returns `difference = current − target`, and
`is_below_or_equal` holds iff the difference is ≤ 0, equivalently iff
`current ≤ target` — the orchestrator's alert condition. -/
theorem analyze_price_below_iff (current target : ℚ) :
    (analyze_price current target).difference = current - target ∧
    ((analyze_price current target).is_below_or_equal = true ↔
      (analyze_price current target).difference ≤ 0) ∧
    ((analyze_price current target).is_below_or_equal = true ↔
      current ≤ target) := by
  refine ⟨rfl, ?_, ?_⟩ <;> simp [analyze_price, sub_nonpos]

/-- C4 witness: the three spec examples, via `analyze_price_below_iff`. -/
theorem analyze_price_below_iff_witness :
    (analyze_price 90 100).difference = 90 - 100 ∧
    ((analyze_price 90 100).is_below_or_equal = true ↔ (90 : ℚ) ≤ 100) :=
  ⟨(analyze_price_below_iff 90 100).1, (analyze_price_below_iff 90 100).2.2⟩

/-- C6: the gate allows a key iff nothing is recorded for it or at least
60 minutes have elapsed since the recorded send; a fresh key is allowed,
a key checked at the moment it was recorded is refused, and a key checked
once the cooldown has elapsed is allowed again. -/
theorem can_send_cooldown :
    (∀ (m : LastNotified) (now : ℚ) key,
      can_send m now key = true ↔
        m key = none ∨ ∃ last, m key = some last ∧ 60 ≤ now - last) ∧
    (∀ (now : ℚ) key, can_send (fun _ => none) now key = true) ∧
    (∀ (m : LastNotified) (now : ℚ) key,
      can_send (fun k => if k = key then some now else m k) now key = false) ∧
    (∀ (m : LastNotified) (now t : ℚ) key, now + 60 ≤ t →
      can_send (fun k => if k = key then some now else m k) t key = true) := by
  refine ⟨fun m now key => ?_, fun now key => rfl, fun m now key => ?_,
    fun m now t key h => ?_⟩
  · cases h : m key with
    | none => simp [can_send, h]
    | some last => simp [can_send, h, COOLDOWN_MINUTES]
  · simp [can_send, COOLDOWN_MINUTES]
  · have h60 : (60 : ℚ) ≤ t - now := by linarith
    simp [can_send, COOLDOWN_MINUTES, h60]

/-- C6 witness: a key recorded at minute 0 and checked at minute 60 is
allowed again, via `can_send_cooldown`. -/
theorem can_send_cooldown_witness :
    can_send (fun k => if k = ("user@example.com", "http://e.com/p")
      then some 0 else (fun _ => none : LastNotified) k) 60
      ("user@example.com", "http://e.com/p") = true :=
  can_send_cooldown.2.2.2 (fun _ => none) 0 60
    ("user@example.com", "http://e.com/p") (by norm_num)

/-- C10: `send_price_drop_email` records the key in the cooldown map
exactly when it returns true; a cooldown suppression, a missing SMTP
field or recipient, or a failed SMTP transaction each yield false with
the map unchanged, so a failed or skipped send never starts the cooldown
and a later check sees the gate exactly as before. -/
theorem send_price_drop_email_gate (m : LastNotified) (now : ℚ)
    (ue url : String) (cfg : SmtpConfig) (smtpOk : Bool) :
    ((send_price_drop_email m now ue url cfg smtpOk).1 = true →
      (send_price_drop_email m now ue url cfg smtpOk).2 =
        fun k => if k = (ue, url) then some now else m k) ∧
    ((send_price_drop_email m now ue url cfg smtpOk).1 = false →
      (send_price_drop_email m now ue url cfg smtpOk).2 = m) ∧
    (can_send m now (ue, url) = false →
      (send_price_drop_email m now ue url cfg smtpOk).1 = false) ∧
    ((truthyStr cfg.host && cfg.port != 0 && truthyStr cfg.user &&
        truthyStr cfg.password && truthyStr cfg.sender && ue != "") = false →
      (send_price_drop_email m now ue url cfg smtpOk).1 = false) ∧
    (smtpOk = false →
      (send_price_drop_email m now ue url cfg smtpOk).1 = false) ∧
    ((send_price_drop_email m now ue url cfg smtpOk).1 = false →
      ∀ (t : ℚ) k, can_send (send_price_drop_email m now ue url cfg smtpOk).2 t k
        = can_send m t k) := by
  by_cases h1 : can_send m now (ue, url)
  · by_cases h2 : (truthyStr cfg.host && cfg.port != 0 && truthyStr cfg.user &&
        truthyStr cfg.password && truthyStr cfg.sender && ue != "") = true
    · cases smtpOk with
      | false => simp [send_price_drop_email, h1, h2]
      | true => simp [send_price_drop_email, h1, h2]
    · rw [Bool.not_eq_true] at h2
      simp [send_price_drop_email, h1, h2]
  · simp only [Bool.not_eq_true] at h1
    simp [send_price_drop_email, h1]

/-- C10 witness: a failed SMTP transaction returns false and leaves the
cooldown map unchanged, via `send_price_drop_email_gate`. -/
theorem send_price_drop_email_gate_witness :
    (send_price_drop_email (fun _ => none) 0 "user@example.com"
        "http://e.com/p" ⟨some "smtp.e.com", 587, some "u", some "pw",
        some "u@e.com"⟩ false).1 = false :=
  (send_price_drop_email_gate (fun _ => none) 0 "user@example.com"
    "http://e.com/p" ⟨some "smtp.e.com", 587, some "u", some "pw",
    some "u@e.com"⟩ false).2.2.2.2.1 rfl

/-- Helper: one loop iteration bumps `processed` and appends the snapshot
of a successful scrape, whatever the comparison and notifier outcomes. -/
theorem checkProduct_step (scrape : Product → Except String ProdInfo)
    (notify : Product → ℚ → Bool) (recipient_email : Option String)
    (st : RunState) (p : Product) :
    (checkProduct scrape notify recipient_email st p).processed
        = st.processed + 1 ∧
    (checkProduct scrape notify recipient_email st p).snapshots
        = st.snapshots ++ (match scrape p with
            | .ok info => [(p.id, info.current_price)]
            | .error _ => []) := by
  cases h : scrape p with
  | error e => simp [checkProduct, h]
  | ok info =>
    refine ⟨?_, ?_⟩ <;>
      · simp only [checkProduct, h]
        split
        · split <;> rfl
        · rfl

/-- Helper: the product loop from an arbitrary running state. -/
theorem checkProduct_foldl (scrape : Product → Except String ProdInfo)
    (notify : Product → ℚ → Bool) (recipient_email : Option String)
    (products : List Product) (st : RunState) :
    (products.foldl (checkProduct scrape notify recipient_email) st).processed
        = st.processed + products.length ∧
    (products.foldl (checkProduct scrape notify recipient_email) st).snapshots
        = st.snapshots ++ products.filterMap (fun p =>
            match scrape p with
            | .ok info => some (p.id, info.current_price)
            | .error _ => none) := by
  induction products generalizing st with
  | nil => simp
  | cons p ps ih =>
    have hstep := checkProduct_step scrape notify recipient_email st p
    have hrec := ih (checkProduct scrape notify recipient_email st p)
    refine ⟨?_, ?_⟩
    · rw [List.foldl_cons, hrec.1, hstep.1, List.length_cons]
      ring
    · rw [List.foldl_cons, hrec.2, hstep.2, List.filterMap_cons]
      cases h : scrape p <;> simp [h]

/-- C7: in one run of the check cycle every active product is processed —
a failed scrape is skipped without aborting the loop — and the persisted
snapshots are exactly one per successfully scraped product; the snapshot
list does not depend on the target comparison, the configured recipient
or the notifier outcome, which are universally quantified and absent from
the right-hand side. -/
theorem run_price_check_once_snapshots
    (scrape : Product → Except String ProdInfo)
    (notify : Product → ℚ → Bool) (recipient_email : Option String)
    (products : List Product) :
    (run_price_check_once scrape notify recipient_email products).processed
        = products.length ∧
    (run_price_check_once scrape notify recipient_email products).snapshots
        = products.filterMap (fun p =>
            match scrape p with
            | .ok info => some (p.id, info.current_price)
            | .error _ => none) := by
  have h := checkProduct_foldl scrape notify recipient_email products ⟨[], 0, 0, 0⟩
  simpa [run_price_check_once] using h

/-- Helper: the explicit `first == 0` branch of the threshold coincides
with the 1%-with-floor formula. -/
theorem trend_threshold_eq (q : ℚ) :
    (if q = 0 then (0.01 : ℚ) else max (|q| * 0.01) 0.01)
      = max (|q| * 0.01) 0.01 := by
  split
  · next h => rw [h]; norm_num
  · rfl

/-- Helper: the window clamp of `get_price_trend_direction`. -/
theorem trend_window_clamp (window : Int) :
    (if window ≤ 1 then 2 else window) = max window 2 := by
  rcases le_or_lt window 1 with h | h
  · rw [if_pos h, max_eq_right (by linarith)]
  · rw [if_neg (by omega), max_eq_left (by omega)]

/-- C3: `get_price_trend_direction` clamps window values ≤ 1 to 2,
returns "stable" when fewer than two snapshots exist, and otherwise
classifies the most recent `window` snapshots chronologically: with
delta = newest − oldest and threshold = max(|oldest| × 0.01, 0.01), "up"
when delta > threshold, "down" when delta < −threshold, else "stable";
including the three spec examples. -/
theorem get_price_trend_direction_spec :
    (∀ (chron : List ℚ) (window : Int), window ≤ 1 →
      get_price_trend_direction chron window
        = get_price_trend_direction chron 2) ∧
    (∀ (chron : List ℚ) (window : Int), chron.length < 2 →
      get_price_trend_direction chron window = "stable") ∧
    (∀ (chron : List ℚ) (window : Int), 2 ≤ chron.length →
      get_price_trend_direction chron window =
        (let recent := chron.drop (chron.length - (max window 2).toNat)
         let oldest := recent.headD 0
         let newest := recent.getLastD 0
         let threshold := max (|oldest| * 0.01) 0.01
         if threshold < newest - oldest then "up"
         else if newest - oldest < -threshold then "down"
         else "stable")) ∧
    get_price_trend_direction [100, 100.5, 100.9] 5 = "stable" ∧
    get_price_trend_direction [100, 105] 5 = "up" ∧
    get_price_trend_direction [100, 94] 5 = "down" := by
  refine ⟨fun chron window h => ?_, fun chron window h => ?_,
    fun chron window h2 => ?_, ?_, ?_, ?_⟩
  · simp [get_price_trend_direction, h]
  · have hl : (chron.reverse.take
        (if window ≤ 1 then 2 else window).toNat).length < 2 := by
      rw [List.length_take, List.length_reverse]
      exact lt_of_le_of_lt (min_le_right _ _) h
    simp only [get_price_trend_direction, get_price_history]
    rw [if_pos hl]
  · simp only [get_price_trend_direction, get_price_history,
      trend_window_clamp]
    have hw2 : 2 ≤ (max window 2).toNat := by
      have : (2 : ℤ) ≤ max window 2 := le_max_right _ _
      omega
    have hlen : ¬ ((chron.reverse.take (max window 2).toNat).length < 2) := by
      rw [List.length_take, List.length_reverse]
      exact not_lt.2 (le_min hw2 h2)
    rw [if_neg hlen]
    have hrev : (chron.reverse.take (max window 2).toNat).reverse
        = chron.drop (chron.length - (max window 2).toNat) := by
      rw [← List.rtake_eq_reverse_take_reverse]
      rfl
    rw [hrev, trend_threshold_eq]
  · norm_num [get_price_trend_direction, get_price_history,
      show Int.toNat 5 = 5 from rfl]
  · norm_num [get_price_trend_direction, get_price_history,
      show Int.toNat 5 = 5 from rfl]
  · norm_num [get_price_trend_direction, get_price_history,
      show Int.toNat 5 = 5 from rfl]

/-- C3 witness: an empty history classifies as "stable", via
`get_price_trend_direction_spec`. -/
theorem get_price_trend_direction_spec_witness :
    get_price_trend_direction ([] : List ℚ) 5 = "stable" :=
  get_price_trend_direction_spec.2.1 [] 5 (by decide)

/-! ### Shape of the scanned tokens -/

/-- A digit or a period: what survives comma stripping. -/
def isDigitDot (c : Char) : Bool := c.isDigit || c = '.'

/-- The shape every scanned candidate has: a leading digit, then digits,
commas and periods. -/
def goodToken (t : List Char) : Bool :=
  match t with
  | [] => false
  | c :: cs => c.isDigit && cs.all isNumChar

theorem goodToken_append (t : List Char) (c : Char) (h : goodToken t)
    (hc : isNumChar c) : goodToken (t ++ [c]) := by
  match t with
  | [] => simp [goodToken] at h
  | d :: ds =>
    simp only [goodToken, Bool.and_eq_true] at h
    simp [goodToken, List.all_append, h.1, h.2, hc]

theorem scanTokensAux_shape (l : List Char) :
    ∀ (cur : Option (List Char)), (∀ t, cur = some t → goodToken t) →
      ∀ tok ∈ scanTokensAux cur l, goodToken tok := by
  induction l with
  | nil =>
    intro cur hcur tok htok
    cases cur with
    | none => simp [scanTokensAux] at htok
    | some t =>
      simp only [scanTokensAux, List.mem_singleton] at htok
      exact htok ▸ hcur t rfl
  | cons c cs ih =>
    intro cur hcur tok htok
    cases cur with
    | none =>
      by_cases hd : c.isDigit
      · refine ih (some [c]) ?_ tok ?_
        · intro t ht
          cases ht
          simp [goodToken, hd]
        · simpa [scanTokensAux, hd] using htok
      · exact ih none (by simp) tok
          (by simpa [scanTokensAux, hd] using htok)
    | some t =>
      have hgt : goodToken t := hcur t rfl
      by_cases hn : isNumChar c
      · refine ih (some (t ++ [c])) ?_ tok
          (by simpa [scanTokensAux, hn] using htok)
        intro u hu
        cases hu
        exact goodToken_append t c hgt hn
      · have htok' : tok = t ∨ tok ∈ scanTokensAux none cs := by
          simpa [scanTokensAux, hn] using htok
        rcases htok' with h | h
        · exact h ▸ hgt
        · exact ih none (by simp) tok h

theorem scanTokens_shape (l : List Char) :
    ∀ tok ∈ scanTokens l, goodToken tok :=
  scanTokensAux_shape l none (by simp)

/-! ### The longest-first selection -/

theorem le_length_maxByLen (x : List Char) (l : List (List Char)) :
    x.length ≤ (maxByLen x l).length := by
  induction l generalizing x with
  | nil => exact le_refl _
  | cons y ys ih =>
    by_cases h : x.length < y.length
    · simp only [maxByLen, if_pos h]
      exact le_trans (le_of_lt h) (ih y)
    · simp only [maxByLen, if_neg h]
      exact ih x

/-- `maxByLen` picks an element whose predecessors in the list are all
strictly shorter and whose successors are no longer: the longest element,
first occurrence on ties (Python `max(/, key=len)`). -/
theorem maxByLen_decomp (l : List (List Char)) :
    ∀ x, ∃ pre post, x :: l = pre ++ maxByLen x l :: post ∧
      (∀ u ∈ pre, u.length < (maxByLen x l).length) ∧
      (∀ u ∈ post, u.length ≤ (maxByLen x l).length) := by
  induction l with
  | nil => exact fun x => ⟨[], [], rfl, by simp, by simp⟩
  | cons y ys ih =>
    intro x
    by_cases h : x.length < y.length
    · obtain ⟨pre, post, hdec, hpre, hpost⟩ := ih y
      have hx : maxByLen x (y :: ys) = maxByLen y ys := by
        simp only [maxByLen, if_pos h]
      refine ⟨x :: pre, post, ?_, ?_, hx ▸ hpost⟩
      · rw [hx, List.cons_append, ← hdec]
      · intro u hu
        rcases List.mem_cons.1 hu with rfl | hu
        · exact hx ▸ lt_of_lt_of_le h (le_length_maxByLen y ys)
        · exact hx ▸ hpre u hu
    · obtain ⟨pre, post, hdec, hpre, hpost⟩ := ih x
      have hx : maxByLen x (y :: ys) = maxByLen x ys := by
        simp only [maxByLen, if_neg h]
      have hyx : y.length ≤ x.length := le_of_not_lt h
      cases pre with
      | nil =>
        simp only [List.nil_append] at hdec
        have hx2 : maxByLen x ys = x := (List.cons.injEq _ _ _ _ ▸ hdec).1.symm
        have hpost2 : ys = post := (List.cons.injEq _ _ _ _ ▸ hdec).2
        refine ⟨[], y :: ys, ?_, by simp, ?_⟩
        · rw [hx, hx2, List.nil_append]
        · intro u hu
          rcases List.mem_cons.1 hu with rfl | hu
          · rw [hx, hx2]; exact hyx
          · rw [hx, hx2]
            rw [hx2] at hpost
            exact hpost u (hpost2 ▸ hu)
      | cons p ps =>
        simp only [List.cons_append, List.cons.injEq] at hdec
        obtain ⟨rfl, hys⟩ := hdec
        refine ⟨x :: y :: ps, post, ?_, ?_, hx ▸ hpost⟩
        · rw [hx]
          conv_lhs => rw [hys]
          simp
        · intro u hu
          have hp : x.length < (maxByLen x ys).length :=
            hpre x (List.mem_cons_self _ _)
          rcases List.mem_cons.1 hu with rfl | hu
          · exact hx ▸ hp
          rcases List.mem_cons.1 hu with rfl | hu
          · exact hx ▸ lt_of_le_of_lt hyx hp
          · exact hx ▸ hpre u (List.mem_cons_of_mem _ hu)

theorem maxByLen_mem (x : List Char) (l : List (List Char)) :
    maxByLen x l ∈ x :: l := by
  obtain ⟨pre, post, hdec, -, -⟩ := maxByLen_decomp l x
  rw [hdec]
  exact List.mem_append_right _ (List.mem_cons_self _ _)

/-! ### The cleaned token always parses -/

theorem isDigit_ne_comma {c : Char} (h : c.isDigit = true) : ¬(c = ',') :=
  fun he => by rw [he] at h; exact absurd h (by decide)

theorem isDigit_ne_dot {c : Char} (h : c.isDigit = true) : ¬(c = '.') :=
  fun he => by rw [he] at h; exact absurd h (by decide)

theorem isDigitDot_of_isNumChar {u : Char} (h : isNumChar u = true)
    (hne : ¬(u = ',')) : isDigitDot u = true := by
  simp only [isNumChar, Bool.or_eq_true, decide_eq_true_eq] at h
  rcases h with (h | h) | h
  · simp [isDigitDot, h]
  · exact absurd h hne
  · simp [isDigitDot, h]

theorem isDigit_of_isDigitDot {u : Char} (h : isDigitDot u = true)
    (hne : ¬(u = '.')) : u.isDigit = true := by
  simp only [isDigitDot, Bool.or_eq_true, decide_eq_true_eq] at h
  rcases h with h | h
  · exact h
  · exact absurd h hne

theorem stripCommas_shape (t : List Char) (h : goodToken t) :
    ∃ c cs, stripCommas t = c :: cs ∧ c.isDigit = true ∧
      cs.all isDigitDot = true := by
  match t with
  | [] => simp [goodToken] at h
  | d :: ds =>
    simp only [goodToken, Bool.and_eq_true] at h
    obtain ⟨hd, hds⟩ := h
    refine ⟨d, ds.filter (· ≠ ','), ?_, hd, ?_⟩
    · simp [stripCommas, List.filter_cons, isDigit_ne_comma hd]
    · rw [List.all_eq_true]
      intro u hu
      rw [List.mem_filter] at hu
      have h1 : isNumChar u = true := List.all_eq_true.1 hds u hu.1
      have h2 : ¬(u = ',') := by simpa using hu.2
      exact isDigitDot_of_isNumChar h1 h2

theorem mem_of_mem_takeWhileNe {u : Char} {cs : List Char}
    (hu : u ∈ cs.takeWhile (· ≠ '.')) : u ∈ cs :=
  (List.takeWhile_sublist _).subset hu

theorem ne_dot_of_mem_takeWhile {u : Char} {cs : List Char}
    (hu : u ∈ cs.takeWhile (· ≠ '.')) : ¬(u = '.') := by
  simpa using List.mem_takeWhile_imp hu

theorem normalizeDots_shape (c : Char) (cs : List Char)
    (hc : c.isDigit = true) (hcs : cs.all isDigitDot = true) :
    ∃ d ds, normalizeDots (c :: cs) = d :: ds ∧ d.isDigit = true ∧
      ds.all isDigitDot = true ∧ (d :: ds).count '.' ≤ 1 := by
  by_cases hcount : 1 < (c :: cs).count '.'
  · have hcne : ¬(c = '.') := isDigit_ne_dot hc
    refine ⟨c, cs.takeWhile (· ≠ '.') ++
      '.' :: ((cs.dropWhile (· ≠ '.')).tail.filter (· ≠ '.')), ?_, hc, ?_, ?_⟩
    · simp only [normalizeDots, if_pos hcount, List.takeWhile_cons,
        List.dropWhile_cons]
      simp [hcne]
    · rw [List.all_eq_true]
      intro u hu
      rw [List.mem_append] at hu
      rcases hu with hu | hu
      · exact List.all_eq_true.1 hcs u (mem_of_mem_takeWhileNe hu)
      · rcases List.mem_cons.1 hu with rfl | hu
        · decide
        · have h1 : u ∈ (cs.dropWhile (· ≠ '.')).tail :=
            (List.mem_filter.1 hu).1
          have h2 : u ∈ cs :=
            (List.dropWhile_sublist _).subset
              ((List.tail_sublist _).subset h1)
          exact List.all_eq_true.1 hcs u h2
    · have h1 : (cs.takeWhile (· ≠ '.')).count '.' = 0 := by
        rw [List.count_eq_zero]
        intro hmem
        exact ne_dot_of_mem_takeWhile hmem rfl
      have h2 : (((cs.dropWhile (· ≠ '.')).tail.filter (· ≠ '.'))).count '.'
          = 0 := by
        rw [List.count_eq_zero]
        intro hmem
        have := (List.mem_filter.1 hmem).2
        simp at this
      rw [List.count_cons, List.count_append, List.count_cons, h1, h2]
      simp [hcne]
  · exact ⟨c, cs, by simp [normalizeDots, hcount], hc, hcs, by omega⟩

theorem dropWhile_head_not {α : Type} (p : α → Bool) :
    ∀ (l : List α) e rest, l.dropWhile p = e :: rest → p e = false := by
  intro l
  induction l with
  | nil => intro e rest h; simp [List.dropWhile] at h
  | cons a as ih =>
    intro e rest h
    by_cases hp : p a
    · rw [List.dropWhile_cons, if_pos hp] at h
      exact ih e rest h
    · rw [List.dropWhile_cons, if_neg hp] at h
      cases h
      simpa [Bool.not_eq_true] using hp

theorem parseFloat_isSome (c : Char) (cs : List Char) (hc : c.isDigit = true)
    (hcs : cs.all isDigitDot = true) (hcount : (c :: cs).count '.' ≤ 1) :
    ∃ v, parseFloat (c :: cs) = some v := by
  have hcne : ¬(c = '.') := isDigit_ne_dot hc
  have htake : (c :: cs).takeWhile (· ≠ '.')
      = c :: cs.takeWhile (· ≠ '.') := by
    simp [List.takeWhile_cons, hcne]
  have hIntNe : ¬((c :: cs).takeWhile (· ≠ '.') = []) := by
    rw [htake]; simp
  have hIntAll : ((c :: cs).takeWhile (· ≠ '.')).all Char.isDigit = true := by
    rw [htake, List.all_cons, Bool.and_eq_true]
    refine ⟨hc, List.all_eq_true.2 fun u hu => ?_⟩
    exact isDigit_of_isDigitDot
      (List.all_eq_true.1 hcs u (mem_of_mem_takeWhileNe hu))
      (ne_dot_of_mem_takeWhile hu)
  have hcond : (decide ((c :: cs).takeWhile (· ≠ '.') = [])
      || !((c :: cs).takeWhile (· ≠ '.')).all Char.isDigit) = false := by
    rw [hIntAll, decide_eq_false hIntNe]
    rfl
  cases hdrop : (c :: cs).dropWhile (· ≠ '.') with
  | nil =>
    refine ⟨digitsToNat ((c :: cs).takeWhile (· ≠ '.')), ?_⟩
    simp only [parseFloat, hdrop, hcond, Bool.false_eq_true, if_false]
  | cons e rest =>
    have he : e = '.' := by
      simpa using dropWhile_head_not _ (c :: cs) e rest hdrop
    subst he
    have hsplit : (c :: cs).takeWhile (· ≠ '.') ++ '.' :: rest = c :: cs := by
      rw [← hdrop]
      exact List.takeWhile_append_dropWhile _ _
    have hcnt : ((c :: cs).takeWhile (· ≠ '.')).count '.' = 0 := by
      rw [List.count_eq_zero, htake]
      intro hmem
      rcases List.mem_cons.1 hmem with h | h
      · exact hcne h.symm
      · exact ne_dot_of_mem_takeWhile h rfl
    have hrest0 : rest.count '.' = 0 := by
      have hce := congrArg (List.count '.') hsplit
      rw [List.count_append, List.count_cons_self, hcnt] at hce
      omega
    have hrestAll : rest.all Char.isDigit = true := by
      rw [List.all_eq_true]
      intro u hu
      have hmem : u ∈ c :: cs := by
        rw [← hsplit]
        exact List.mem_append_right _ (List.mem_cons_of_mem _ hu)
      have hdd : isDigitDot u = true := by
        rcases List.mem_cons.1 hmem with rfl | hm
        · simp [isDigitDot, hc]
        · exact List.all_eq_true.1 hcs u hm
      have hne : ¬(u = '.') := by
        intro h
        subst h
        rw [List.count_eq_zero] at hrest0
        exact hrest0 hu
      exact isDigit_of_isDigitDot hdd hne
    refine ⟨(digitsToNat ((c :: cs).takeWhile (· ≠ '.')) : ℚ)
      + (digitsToNat rest : ℚ) / 10 ^ rest.length, ?_⟩
    simp only [parseFloat, hdrop, hcond, Bool.false_eq_true, if_false,
      hrestAll, if_true]

theorem goodToken_parses (t : List Char) (h : goodToken t) :
    ∃ v, parseFloat (normalizeDots (stripCommas t)) = some v := by
  obtain ⟨c, cs, heq, hc, hcs⟩ := stripCommas_shape t h
  rw [heq]
  obtain ⟨d, ds, heq2, hd, hds, hcount⟩ := normalizeDots_shape c cs hc hcs
  rw [heq2]
  exact parseFloat_isSome d ds hd hds hcount

theorem parse_price_text_ok (text t : List Char) (ts : List (List Char))
    (hscan : scanTokens text = t :: ts) :
    ∃ v, parseFloat (normalizeDots (stripCommas (maxByLen t ts))) = some v ∧
      parse_price_text text = .ok v := by
  have hgood : goodToken (maxByLen t ts) :=
    scanTokens_shape text _ (by rw [hscan]; exact maxByLen_mem t ts)
  obtain ⟨v, hv⟩ := goodToken_parses _ hgood
  refine ⟨v, hv, ?_⟩
  unfold parse_price_text
  rw [hscan]
  simp [hv]

/-- C9: whenever the scan finds at least one candidate token, the final
numeric parse of the cleaned selected token succeeds, so the trailing
parse-failure branch of `_parse_price_text` is unreachable and the only
failure mode is the no-candidate case. -/
theorem normalizer_final_parse_total (text t : List Char)
    (ts : List (List Char)) (hscan : scanTokens text = t :: ts) :
    ∃ v, parseFloat (normalizeDots (stripCommas (maxByLen t ts))) = some v ∧
      parse_price_text text = .ok v :=
  parse_price_text_ok text t ts hscan

/-- C9 witness: the candidate scan of "MRP: 999" finds the token "999"
and the final parse succeeds, via `normalizer_final_parse_total`. -/
theorem normalizer_final_parse_total_witness :
    ∃ v, parseFloat (normalizeDots (stripCommas
        (maxByLen "999".toList []))) = some v ∧
      parse_price_text "MRP: 999".toList = .ok v :=
  normalizer_final_parse_total "MRP: 999".toList "999".toList [] rfl

/-- C8: the normalizer fails exactly when the text holds no candidate
numeric token, the error payload carries the original text, and
"no digits here" fails. -/
theorem normalizer_error_iff :
    (∀ text : List Char,
      (∃ e, parse_price_text text = .error e) ↔ scanTokens text = []) ∧
    (∀ text e, parse_price_text text = .error e → e = text) ∧
    parse_price_text "no digits here".toList
      = .error "no digits here".toList := by
  have herr : ∀ text e, parse_price_text text = .error e →
      e = text ∧ scanTokens text = [] := by
    intro text e h
    cases hscan : scanTokens text with
    | nil =>
      unfold parse_price_text at h
      rw [hscan] at h
      exact ⟨(Except.error.inj h).symm, rfl⟩
    | cons t ts =>
      obtain ⟨v, -, hok⟩ := parse_price_text_ok text t ts hscan
      rw [hok] at h
      cases h
  refine ⟨fun text => ⟨?_, ?_⟩, fun text e h => (herr text e h).1, rfl⟩
  · rintro ⟨e, he⟩
    exact (herr text e he).2
  · intro hscan
    refine ⟨text, ?_⟩
    unfold parse_price_text
    rw [hscan]

/-- C8 witness: "no digits here" has no candidate token, via
`normalizer_error_iff`. -/
theorem normalizer_error_iff_witness :
    scanTokens "no digits here".toList = [] :=
  (normalizer_error_iff.1 "no digits here".toList).mp
    ⟨"no digits here".toList, normalizer_error_iff.2.2⟩

/-- C2: when at least one candidate token exists, the normalizer selects
the longest token by character length with ties broken by first
occurrence (every earlier token is strictly shorter, every later one no
longer), strips commas, and the parse of the cleaned token is the result;
and the two spec examples. -/
theorem normalizer_longest_first :
    (∀ (text t : List Char) (ts : List (List Char)),
      scanTokens text = t :: ts →
      ∃ tok pre post v,
        t :: ts = pre ++ tok :: post ∧
        (∀ u ∈ pre, u.length < tok.length) ∧
        (∀ u ∈ post, u.length ≤ tok.length) ∧
        parseFloat (normalizeDots (stripCommas tok)) = some v ∧
        parse_price_text text = .ok v) ∧
    parse_price_text "Rs. 1,234.00".toList = .ok 1234 ∧
    parse_price_text "MRP: 999".toList = .ok 999 := by
  refine ⟨fun text t ts hscan => ?_, ?_, ?_⟩
  · obtain ⟨pre, post, hdec, hpre, hpost⟩ := maxByLen_decomp ts t
    obtain ⟨v, hv, hok⟩ := parse_price_text_ok text t ts hscan
    exact ⟨maxByLen t ts, pre, post, v, hdec, hpre, hpost, hv, hok⟩
  · rw [show parse_price_text "Rs. 1,234.00".toList
        = .ok (((1234 : ℕ) : ℚ) + ((0 : ℕ) : ℚ) / 10 ^ (2 : ℕ)) from rfl]
    norm_num
  · rw [show parse_price_text "MRP: 999".toList
        = .ok (((999 : ℕ) : ℚ)) from rfl]
    norm_num

/-- C2 witness: instantiated on the scan of "MRP: 999", via
`normalizer_longest_first`. -/
theorem normalizer_longest_first_witness :
    ∃ tok pre post v,
      ["999".toList] = pre ++ tok :: post ∧
      (∀ u ∈ pre, u.length < tok.length) ∧
      (∀ u ∈ post, u.length ≤ tok.length) ∧
      parseFloat (normalizeDots (stripCommas tok)) = some v ∧
      parse_price_text "MRP: 999".toList = .ok v :=
  normalizer_longest_first.1 "MRP: 999".toList "999".toList [] rfl

/-- Helper: the candidate loop of the generic extractor is the first
successful normalization in order. -/
theorem firstPrice_eq_findSome (l : List (List Char)) :
    firstPrice l
      = l.findSome? (fun t => (parse_price_text (stripText t)).toOption) := by
  induction l with
  | nil => rfl
  | cons t ts ih =>
    by_cases h : stripText t = []
    · have hp : parse_price_text ([] : List Char) = .error [] := rfl
      simp [firstPrice, h, hp, List.findSome?_cons, ih, Except.toOption]
    · cases hp : parse_price_text (stripText t) with
      | ok p => simp [firstPrice, h, hp, List.findSome?_cons, Except.toOption]
      | error e =>
        simp [firstPrice, h, hp, List.findSome?_cons, ih, Except.toOption]

/-- C5: the generic extractor names the product from the document title —
the literal "Unknown product" when no title element exists — and prices
it by the first text node containing a digit, in document order, that the
normalizer accepts, failing when none does; and the spec example. -/
theorem generic_extractor_spec :
    (∀ doc : GenericDoc, parse_generic_product doc =
      match (doc.texts.filter (fun t => t.any Char.isDigit)).findSome?
          (fun t => (parse_price_text (stripText t)).toOption) with
      | some p => .ok (genericName doc, p)
      | none => .error "Could not find a price on the page.") ∧
    (∀ doc t, doc.title = some t → genericName doc = stripText t) ∧
    (∀ doc, doc.title = none → genericName doc = "Unknown product".toList) ∧
    parse_generic_product ⟨some "Demo Product".toList,
      ["Only Rs. 1,234.00 today!".toList]⟩
      = .ok ("Demo Product".toList, 1234) := by
  refine ⟨fun doc => ?_, fun doc t h => ?_, fun doc h => ?_, ?_⟩
  · rw [parse_generic_product, firstPrice_eq_findSome]
  · rw [genericName, h]
  · rw [genericName, h]
  · rw [show parse_generic_product ⟨some "Demo Product".toList,
        ["Only Rs. 1,234.00 today!".toList]⟩
        = .ok ("Demo Product".toList,
          ((1234 : ℕ) : ℚ) + ((0 : ℕ) : ℚ) / 10 ^ (2 : ℕ)) from rfl]
    norm_num

/-- C5 witness: a titled document is named by its stripped title, via
`generic_extractor_spec`. -/
theorem generic_extractor_spec_witness :
    genericName ⟨some "Demo Product".toList, []⟩
      = stripText "Demo Product".toList :=
  generic_extractor_spec.2.1 ⟨some "Demo Product".toList, []⟩
    "Demo Product".toList rfl

end PriceTracker
